import Mathlib

-- Verification of the TeleVault storage engine: a shallow embedding of the
-- chunk splitter/reassembler, the codec and crypto layers, the metadata and
-- index model, and the download orchestrator, with theorems settling the
-- specified behavioural laws.
--
-- Bytes are modelled as `List Nat` (each entry a byte value); digests are
-- modelled as opaque `Nat` values produced by an abstract hash function,
-- since the BLAKE3 primitive lives outside this code base.

namespace TeleVault

-- ## Chunker (`televault/chunker.py`)

/-- Number of chunks for a file of `fileSize` bytes at chunk size `chunkSize`
(`count_chunks`): `0` for an empty file, else `(size + chunk - 1) // chunk`. -/
def count_chunks (fileSize chunkSize : Nat) : Nat :=
  if fileSize = 0 then 0 else (fileSize + chunkSize - 1) / chunkSize

/-- Upload-level chunk accounting (`TeleVault.upload`): the same ceiling
division, but an empty file is forced to one nominal chunk. -/
def uploadTotalChunks (fileSize chunkSize : Nat) : Nat :=
  let total := (fileSize + chunkSize - 1) / chunkSize
  if total = 0 then 1 else total

/-- A chunk of file data (`chunker.Chunk`): index, raw bytes, content digest
and size. Digests are `Nat` values of an abstract hash function. -/
structure Chunk where
  index : Nat
  data : List Nat
  hash : Nat
  size : Nat
deriving DecidableEq

/-- The bytes of chunk `i` of file contents `F` at chunk size `C`: the slice
`F[i*C : i*C + C]`, exactly what the sequential reader of `iter_chunks`
returns for its `i`-th read. -/
def chunkData (F : List Nat) (C : Nat) (i : Nat) : List Nat :=
  (F.drop (i * C)).take C

/-- The `i`-th chunk object produced by the splitter. -/
def chunkOfIdx (hashFn : List Nat → Nat) (F : List Nat) (C : Nat) (i : Nat) : Chunk :=
  { index := i
    data := chunkData F C i
    hash := hashFn (chunkData F C i)
    size := (chunkData F C i).length }

/-- The chunk sequence emitted by `iter_chunks` for file contents `F`:
one chunk per index below `count_chunks`, in index order. -/
def iter_chunks (hashFn : List Nat → Nat) (F : List Nat) (C : Nat) : List Chunk :=
  (List.range (count_chunks F.length C)).map (chunkOfIdx hashFn F C)

/-- Writing `d` into byte list `c` at offset `off`, with the POSIX `r+b`
seek-and-write semantics used by `ChunkWriter.write_chunk`: bytes before the
offset and after the written range are preserved; a seek past the end pads
with zero bytes. -/
def writeAt (c : List Nat) (off : Nat) (d : List Nat) : List Nat :=
  c.take off ++ List.replicate (off - c.length) 0 ++ d ++ c.drop (off + d.length)

/-- State of a `ChunkWriter`: current file contents plus the set of chunk
indices already written. -/
structure WriterState where
  contents : List Nat
  written : Finset Nat
deriving DecidableEq

/-- Constructing a `ChunkWriter` truncates the destination file to the
declared total size (zero-filled) and starts with no chunk written. -/
def writerInit (totalSize : Nat) : WriterState :=
  { contents := List.replicate totalSize 0, written := ∅ }

/-- One `write_chunk` call: a repeated index is a no-op, otherwise the chunk
data is written at offset `index * chunk_size` and the index recorded. -/
def write_chunk (chunkSize : Nat) (st : WriterState) (ch : Chunk) : WriterState :=
  if ch.index ∈ st.written then st
  else
    { contents := writeAt st.contents (ch.index * chunkSize) ch.data
      written := insert ch.index st.written }

/-- Folding `write_chunk` over a list of arriving chunks. -/
def writeChunks (chunkSize : Nat) (st : WriterState) (l : List Chunk) : WriterState :=
  l.foldl (write_chunk chunkSize) st

-- ## Metadata model (`televault/models.py`)

/-- Per-chunk record stored in metadata (`models.ChunkInfo`). -/
structure ChunkInfo where
  index : Nat
  message_id : Nat
  size : Nat
  hash : Nat
deriving DecidableEq

/-- Metadata record for a stored file (`models.FileMetadata`); timestamp and
compression-ratio bookkeeping fields are elided as no verified operation
reads them. -/
structure FileMetadata where
  id : String
  name : String
  size : Nat
  hash : Nat
  chunks : List ChunkInfo
  encrypted : Bool
  compressed : Bool
  message_id : Option Nat
deriving DecidableEq

/-- Completeness check (`FileMetadata.is_complete`): false on an empty chunk
list, otherwise the set of chunk indices must equal `{0, …, n-1}` where `n`
is the number of chunk records. -/
def is_complete (md : FileMetadata) : Bool :=
  if md.chunks = [] then false
  else decide ((md.chunks.map ChunkInfo.index).toFinset = Finset.range md.chunks.length)

-- ## Arithmetic helpers for the chunk-count law

/-- For a non-empty file the ceiling division used by `count_chunks`
rewrites to `(S-1)/C + 1`. -/
theorem count_chunks_pos_eq (S C : Nat) (hS : 0 < S) (hC : 0 < C) :
    count_chunks S C = (S - 1) / C + 1 := by
  unfold count_chunks
  rw [if_neg (by omega : ¬ S = 0), (by omega : S + C - 1 = (S - 1) + C),
    Nat.add_div_right _ hC]

theorem count_chunks_mul_ge (S C : Nat) (hS : 0 < S) (hC : 0 < C) :
    S ≤ count_chunks S C * C := by
  rw [count_chunks_pos_eq S C hS hC]
  have h := Nat.div_add_mod (S - 1) C
  have hm : (S - 1) % C < C := Nat.mod_lt _ hC
  have h2 : (((S - 1) / C) + 1) * C = C * ((S - 1) / C) + C := by ring
  omega

theorem count_chunks_pred_mul_lt (S C : Nat) (hS : 0 < S) (hC : 0 < C) :
    (count_chunks S C - 1) * C < S := by
  rw [count_chunks_pos_eq S C hS hC]
  have h := Nat.div_add_mod (S - 1) C
  have hm : (S - 1) % C < C := Nat.mod_lt _ hC
  have h3 : (S - 1) / C + 1 - 1 = (S - 1) / C := rfl
  rw [h3, Nat.mul_comm]
  omega

/-- Every valid chunk index starts strictly inside the file. -/
theorem index_mul_lt_of_lt_count (S C i : Nat) (hC : 0 < C)
    (hi : i < count_chunks S C) : i * C < S := by
  have hS : 0 < S := by
    by_contra h
    have : S = 0 := by omega
    simp [count_chunks, this] at hi
  have h1 : i ≤ count_chunks S C - 1 := by omega
  have h2 : i * C ≤ (count_chunks S C - 1) * C := Nat.mul_le_mul_right _ h1
  exact lt_of_le_of_lt h2 (count_chunks_pred_mul_lt S C hS hC)

/-- Claim C4: `count_chunks` returns `0` for an empty file and the ceiling
`⌈S / C⌉` for a non-empty one; upload-level accounting agrees with it on
non-empty files but forces an empty file to exactly one logical transfer
unit, even though the splitter emits zero chunks for an empty source. -/
theorem count_chunks_ceil_and_empty_upload_unit (C : Nat) (hC : 0 < C) :
    count_chunks 0 C = 0 ∧
    (∀ S, 0 < S → (count_chunks S C : ℤ) = ⌈(S : ℚ) / (C : ℚ)⌉) ∧
    uploadTotalChunks 0 C = 1 ∧
    (∀ S, 0 < S → uploadTotalChunks S C = count_chunks S C) ∧
    (∀ hashFn, iter_chunks hashFn [] C = []) := by
  have hCQ : (0 : ℚ) < (C : ℚ) := by exact_mod_cast hC
  have hu0 : uploadTotalChunks 0 C = 1 := by
    have h0 : (0 + C - 1) / C = 0 := Nat.div_eq_of_lt (by omega)
    show (if (0 + C - 1) / C = 0 then 1 else (0 + C - 1) / C) = 1
    rw [if_pos h0]
  refine ⟨by simp [count_chunks], ?_, hu0, ?_, ?_⟩
  · intro S hS
    have hlt := count_chunks_pred_mul_lt S C hS hC
    have hge := count_chunks_mul_ge S C hS hC
    have hpos : 0 < count_chunks S C := by
      rw [count_chunks_pos_eq S C hS hC]; exact Nat.succ_pos _
    symm
    rw [Int.ceil_eq_iff]
    constructor
    · have hcast : ((count_chunks S C : ℤ) : ℚ) - 1 =
          ((count_chunks S C - 1 : Nat) : ℚ) := by
        rw [Nat.cast_sub hpos]
        push_cast
        ring
      rw [hcast, lt_div_iff₀ hCQ]
      exact_mod_cast hlt
    · rw [div_le_iff₀ hCQ]
      exact_mod_cast hge
  · intro S hS
    have hne : (S + C - 1) / C ≠ 0 := by
      have h := count_chunks_pos_eq S C hS hC
      unfold count_chunks at h
      rw [if_neg (by omega : ¬ S = 0)] at h
      rw [h]
      exact Nat.succ_ne_zero _
    show (if (S + C - 1) / C = 0 then 1 else (S + C - 1) / C) = count_chunks S C
    rw [if_neg hne]
    unfold count_chunks
    rw [if_neg (by omega : ¬ S = 0)]
  · intro hashFn
    simp [iter_chunks, count_chunks]

/-- Witness for C4 at `C = 100`, `S = 250` (the spec's concrete scenario:
a 250-byte file at chunk size 100 gives 3 chunks). -/
theorem count_chunks_ceil_witness :
    count_chunks 0 100 = 0 ∧ (count_chunks 250 100 : ℤ) = ⌈(250 : ℚ) / (100 : ℚ)⌉ ∧
    uploadTotalChunks 0 100 = 1 ∧ uploadTotalChunks 250 100 = count_chunks 250 100 := by
  obtain ⟨h0, hceil, hu0, hu, _⟩ :=
    count_chunks_ceil_and_empty_upload_unit 100 (by norm_num)
  exact ⟨h0, hceil 250 (by norm_num), hu0, hu 250 (by norm_num)⟩

/-- Claim C10: `is_complete` is false on an empty chunk list (so a zero-byte
file's metadata is never complete); on a non-empty list it is true exactly
when the chunk indices form the set `{0, …, n-1}`; and it is invariant under
reordering of the chunk list. -/
theorem is_complete_indices_spec (md : FileMetadata) :
    (md.chunks = [] → is_complete md = false) ∧
    (md.chunks ≠ [] →
      (is_complete md = true ↔
        (md.chunks.map ChunkInfo.index).toFinset = Finset.range md.chunks.length)) ∧
    (∀ md' : FileMetadata, md.chunks.Perm md'.chunks →
      is_complete md = is_complete md') := by
  refine ⟨?_, ?_, ?_⟩
  · intro h; simp [is_complete, h]
  · intro h
    simp [is_complete, h]
  · intro md' hperm
    by_cases h : md.chunks = []
    · have h' : md'.chunks = [] := by
        have hl := hperm.length_eq
        rw [h] at hl
        exact List.length_eq_zero.mp hl.symm
      simp [is_complete, h, h']
    · have h' : md'.chunks ≠ [] := by
        intro h0
        apply h
        have hl := hperm.length_eq
        rw [h0] at hl
        exact List.length_eq_zero.mp hl
      have hlen : md.chunks.length = md'.chunks.length := hperm.length_eq
      have hfin : (md.chunks.map ChunkInfo.index).toFinset =
          (md'.chunks.map ChunkInfo.index).toFinset := by
        ext a
        simp [List.mem_toFinset, (hperm.map ChunkInfo.index).mem_iff]
      simp only [is_complete, if_neg h, if_neg h']
      rw [hfin, hlen]

/-- Sample metadata with a gap in the chunk indices (indices `{0, 2}` out of
two records), as in the repository's own incompleteness test. -/
def sampleGapMd : FileMetadata :=
  { id := "test", name := "file.bin", size := 2048, hash := 0,
    chunks := [⟨0, 100, 1024, 1⟩, ⟨2, 102, 1024, 3⟩],
    encrypted := true, compressed := false, message_id := none }

/-- Sample metadata whose two chunk records arrive in reverse index order. -/
def sampleRevMd : FileMetadata :=
  { id := "t2", name := "f2", size := 2, hash := 0,
    chunks := [⟨1, 101, 1, 2⟩, ⟨0, 100, 1, 1⟩],
    encrypted := true, compressed := false, message_id := none }

/-- Witness for C10 on the spec's incomplete example and a complete two-chunk
file given in reverse order. -/
theorem is_complete_indices_witness :
    is_complete sampleGapMd = false ∧ is_complete sampleRevMd = true := by
  constructor
  · have h2 := (is_complete_indices_spec sampleGapMd).2.1 (by decide)
    cases hb : is_complete sampleGapMd
    · rfl
    · exact absurd (h2.mp hb) (by decide)
  · exact ((is_complete_indices_spec sampleRevMd).2.1 (by decide)).mpr (by decide)

-- ## Reassembly order independence (`ChunkWriter`)

theorem writeAt_length (cs d : List Nat) (off : Nat) (h : off + d.length ≤ cs.length) :
    (writeAt cs off d).length = cs.length := by
  unfold writeAt
  rw [(by omega : off - cs.length = 0), List.replicate_zero, List.append_nil]
  simp only [List.length_append, List.length_take, List.length_drop, Nat.min_def]
  split <;> omega

theorem writeAt_getElem? (cs d : List Nat) (off : Nat) (h : off + d.length ≤ cs.length)
    (k : Nat) :
    (writeAt cs off d)[k]? =
      if off ≤ k ∧ k < off + d.length then d[k - off]? else cs[k]? := by
  unfold writeAt
  rw [(by omega : off - cs.length = 0), List.replicate_zero, List.append_nil]
  have hA : (cs.take off).length = off := by rw [List.length_take]; omega
  rw [List.getElem?_append, List.getElem?_append, List.getElem?_drop,
    List.getElem?_take, List.length_append, hA]
  split_ifs <;> first | rfl | omega | (congr 1; omega)

/-- Characterisation `k / C = i ↔ k lies in chunk i's byte range`. -/
theorem div_eq_index_iff (C : Nat) (hC : 0 < C) (k i : Nat) :
    k / C = i ↔ i * C ≤ k ∧ k < (i + 1) * C := by
  rw [← Nat.le_div_iff_mul_le hC, ← Nat.div_lt_iff_lt_mul hC]
  omega

theorem div_lt_count (S C k : Nat) (hC : 0 < C) (hk : k < S) :
    k / C < count_chunks S C := by
  have hS : 0 < S := by omega
  rw [count_chunks_pos_eq S C hS hC]
  exact Nat.lt_succ_of_le (Nat.div_le_div_right (by omega))

/-- Invariant carried through reassembly: the writer's file has the declared
length, bytes of already-written chunks agree with the source file, and all
other bytes are still the zero fill. -/
def coveredSpec (F : List Nat) (C : Nat) (st : WriterState) : Prop :=
  st.contents.length = F.length ∧
  ∀ k : Nat, st.contents[k]? =
    if k < F.length then (if k / C ∈ st.written then F[k]? else some 0) else none

theorem write_chunk_covered (hashFn : List Nat → Nat) (F : List Nat) (C : Nat)
    (hC : 0 < C) (i : Nat) (hi : i < count_chunks F.length C) (st : WriterState)
    (h : coveredSpec F C st) :
    coveredSpec F C (write_chunk C st (chunkOfIdx hashFn F C i)) ∧
    (write_chunk C st (chunkOfIdx hashFn F C i)).written = insert i st.written := by
  obtain ⟨hlen, hget⟩ := h
  by_cases hmem : i ∈ st.written
  · refine ⟨?_, ?_⟩
    · simp only [write_chunk, chunkOfIdx, if_pos hmem]
      exact ⟨hlen, hget⟩
    · simp only [write_chunk, chunkOfIdx, if_pos hmem]
      exact (Finset.insert_eq_self.mpr hmem).symm
  · have hiC : i * C < F.length := index_mul_lt_of_lt_count F.length C i hC hi
    have hdlen : (chunkData F C i).length = min C (F.length - i * C) := by
      simp [chunkData]
    have hbound : i * C + (chunkData F C i).length ≤ st.contents.length := by
      rw [hlen, hdlen]; omega
    refine ⟨⟨?_, ?_⟩, ?_⟩
    · simp only [write_chunk, chunkOfIdx, if_neg hmem]
      rw [writeAt_length _ _ _ hbound, hlen]
    · intro k
      simp only [write_chunk, chunkOfIdx, if_neg hmem]
      rw [writeAt_getElem? _ _ _ hbound k]
      by_cases hreg : i * C ≤ k ∧ k < i * C + (chunkData F C i).length
      · rw [if_pos hreg]
        have hreg' : i * C ≤ k ∧ k < i * C + min C (F.length - i * C) := by
          rw [hdlen] at hreg; exact hreg
        have hkF : k < F.length := by omega
        have hkdiv : k / C = i := by
          rw [div_eq_index_iff C hC]
          have hmul : (i + 1) * C = i * C + C := by ring
          omega
        rw [if_pos hkF, if_pos (by rw [hkdiv]; exact Finset.mem_insert_self i _)]
        simp only [chunkData]
        rw [List.getElem?_take, if_pos (by omega), List.getElem?_drop]
        congr 1
        omega
      · rw [if_neg hreg, hget k]
        by_cases hkF : k < F.length
        · rw [if_pos hkF, if_pos hkF]
          have hne : k / C ≠ i := by
            intro hdiv
            apply hreg
            rw [div_eq_index_iff C hC] at hdiv
            have hmul : (i + 1) * C = i * C + C := by ring
            rw [hdlen]
            omega
          simp [Finset.mem_insert, hne]
        · rw [if_neg hkF, if_neg hkF]
    · simp [write_chunk, chunkOfIdx, if_neg hmem]

theorem writeChunks_covered (hashFn : List Nat → Nat) (F : List Nat) (C : Nat)
    (hC : 0 < C) (l : List Chunk)
    (hl : ∀ ch ∈ l, ∃ i, i < count_chunks F.length C ∧ ch = chunkOfIdx hashFn F C i)
    (st : WriterState) (h : coveredSpec F C st) :
    coveredSpec F C (writeChunks C st l) ∧
    (writeChunks C st l).written = st.written ∪ (l.map Chunk.index).toFinset := by
  induction l generalizing st with
  | nil =>
    refine ⟨h, ?_⟩
    simp [writeChunks]
  | cons ch rest ih =>
    obtain ⟨i, hi, hch⟩ := hl ch (by simp)
    subst hch
    have hstep := write_chunk_covered hashFn F C hC i hi st h
    have hrest : ∀ ch' ∈ rest, ∃ i, i < count_chunks F.length C ∧
        ch' = chunkOfIdx hashFn F C i := fun ch' hmem => hl ch' (by simp [hmem])
    have hres := ih hrest (write_chunk C st (chunkOfIdx hashFn F C i)) hstep.1
    have hfold : writeChunks C st (chunkOfIdx hashFn F C i :: rest) =
        writeChunks C (write_chunk C st (chunkOfIdx hashFn F C i)) rest := rfl
    refine ⟨hfold ▸ hres.1, ?_⟩
    rw [hfold, hres.2, hstep.2]
    have hidx : (chunkOfIdx hashFn F C i).index = i := rfl
    rw [List.map_cons, hidx, List.toFinset_cons, Finset.insert_union,
      Finset.union_insert]

theorem writeChunks_perm_contents (hashFn : List Nat → Nat) (F : List Nat) (C : Nat)
    (hC : 0 < C) (l : List Chunk) (hperm : l.Perm (iter_chunks hashFn F C)) :
    (writeChunks C (writerInit F.length) l).contents = F := by
  have hl : ∀ ch ∈ l, ∃ i, i < count_chunks F.length C ∧
      ch = chunkOfIdx hashFn F C i := by
    intro ch hch
    have hmem : ch ∈ iter_chunks hashFn F C := hperm.mem_iff.mp hch
    simp only [iter_chunks, List.mem_map, List.mem_range] at hmem
    obtain ⟨i, hi, hchi⟩ := hmem
    exact ⟨i, hi, hchi.symm⟩
  have hinit : coveredSpec F C (writerInit F.length) := by
    refine ⟨by simp [writerInit], ?_⟩
    intro k
    simp [writerInit, List.getElem?_replicate, Finset.not_mem_empty]
  have hmain := writeChunks_covered hashFn F C hC l hl (writerInit F.length) hinit
  have hcomp : (Chunk.index ∘ chunkOfIdx hashFn F C) = id := funext fun i => rfl
  have hiter : (iter_chunks hashFn F C).map Chunk.index =
      List.range (count_chunks F.length C) := by
    rw [iter_chunks, List.map_map, hcomp, List.map_id]
  have hidx : ((l.map Chunk.index).toFinset : Finset Nat) =
      Finset.range (count_chunks F.length C) := by
    ext a
    rw [List.mem_toFinset, (hperm.map Chunk.index).mem_iff, hiter,
      List.mem_range, Finset.mem_range]
  obtain ⟨⟨hlen, hget⟩, hwr⟩ := hmain
  apply List.ext_getElem?
  intro k
  rw [hget k]
  by_cases hk : k < F.length
  · rw [if_pos hk]
    have hdivmem : k / C ∈ (writeChunks C (writerInit F.length) l).written := by
      rw [hwr, hidx]
      simp only [writerInit, Finset.empty_union, Finset.mem_range]
      exact div_lt_count F.length C k hC hk
    rw [if_pos hdivmem]
  · rw [if_neg hk]
    exact (List.getElem?_eq_none (by omega)).symm

/-- Claim C5: writing a file's split chunks to a `ChunkWriter` pre-allocated
to the file's size, in any permutation of arrival order, yields output
byte-identical to writing them in index order; and writing a chunk whose
index was already written is an idempotent no-op. -/
theorem chunk_writer_order_independent (hashFn : List Nat → Nat) (F : List Nat)
    (C : Nat) (hC : 0 < C) :
    (∀ l, l.Perm (iter_chunks hashFn F C) →
      (writeChunks C (writerInit F.length) l).contents =
        (writeChunks C (writerInit F.length) (iter_chunks hashFn F C)).contents) ∧
    (∀ st ch, ch.index ∈ st.written → write_chunk C st ch = st) ∧
    (∀ st ch, write_chunk C (write_chunk C st ch) ch = write_chunk C st ch) := by
  refine ⟨?_, ?_, ?_⟩
  · intro l hperm
    rw [writeChunks_perm_contents hashFn F C hC l hperm,
      writeChunks_perm_contents hashFn F C hC _ (List.Perm.refl _)]
  · intro st ch hmem
    simp [write_chunk, hmem]
  · intro st ch
    by_cases hmem : ch.index ∈ st.written
    · simp [write_chunk, hmem]
    · have h1 : write_chunk C st ch =
          { contents := writeAt st.contents (ch.index * C) ch.data,
            written := insert ch.index st.written } := by
        simp [write_chunk, hmem]
      rw [h1]
      simp [write_chunk]

/-- Witness for C5: the chunks of the 5-byte file `[1,2,3,4,5]` at chunk size
2, written in reverse order, reproduce the in-order output; a duplicate write
of chunk 0 is a no-op. -/
theorem chunk_writer_order_independent_witness :
    (writeChunks 2 (writerInit 5)
        ((iter_chunks (fun _ => 0) [1, 2, 3, 4, 5] 2).reverse)).contents =
      (writeChunks 2 (writerInit 5) (iter_chunks (fun _ => 0) [1, 2, 3, 4, 5] 2)).contents := by
  exact (chunk_writer_order_independent (fun _ => 0) [1, 2, 3, 4, 5] 2
    (by norm_num)).1 _ (by decide)

-- ## Crypto layer (`televault/crypto.py`)

def SALT_SIZE : Nat := 16

def NONCE_SIZE : Nat := 12

def HEADER_SIZE : Nat := SALT_SIZE + NONCE_SIZE

/-- Header prepended to encrypted data (`crypto.EncryptionHeader`): a salt
and a nonce, freshly random per encryption call; the randomness is
externalised as an explicit argument to `encrypt_chunk`. -/
structure EncryptionHeader where
  salt : List Nat
  nonce : List Nat
deriving DecidableEq

def EncryptionHeader.toBytes (hdr : EncryptionHeader) : List Nat :=
  hdr.salt ++ hdr.nonce

/-- Header parsing (`EncryptionHeader.from_bytes`): fails when fewer than 28
bytes are available, else the salt is bytes `[0:16]` and the nonce bytes
`[16:28]`. -/
def EncryptionHeader.fromBytes (data : List Nat) : Option EncryptionHeader :=
  if data.length < HEADER_SIZE then none
  else some { salt := data.take SALT_SIZE
              nonce := (data.drop SALT_SIZE).take NONCE_SIZE }

/-- Abstract interface of the AES-256-GCM primitive from the external
`cryptography` library: deterministic encryption and possibly-failing
authenticated decryption, parametric in the key type. Its algebraic laws
enter the theorems as explicit hypotheses, since the cipher itself is not
part of this code base. -/
structure AEAD (K : Type) where
  enc : K → List Nat → List Nat → List Nat
  dec : K → List Nat → List Nat → Option (List Nat)

/-- Failure modes of `decrypt_chunk`: a truncated header, or an AEAD
authentication failure (`InvalidTag`). -/
inductive DecryptError where
  | headerTooShort
  | authFailure
deriving DecidableEq

/-- Chunk encryption (`crypto.encrypt_chunk`): derive the key from the
password and the header's salt, AEAD-encrypt under the header's nonce, and
return header bytes followed by ciphertext-with-tag. -/
def encrypt_chunk {K : Type} (A : AEAD K) (kdf : String → List Nat → K)
    (hdr : EncryptionHeader) (data : List Nat) (password : String) : List Nat :=
  hdr.toBytes ++ A.enc (kdf password hdr.salt) hdr.nonce data

/-- Chunk decryption (`crypto.decrypt_chunk`): parse the header, re-derive
the key from the provided password and recovered salt, and AEAD-decrypt the
remaining bytes, failing on authentication error. -/
def decrypt_chunk {K : Type} (A : AEAD K) (kdf : String → List Nat → K)
    (encryptedData : List Nat) (password : String) : Except DecryptError (List Nat) :=
  match EncryptionHeader.fromBytes encryptedData with
  | none => .error .headerTooShort
  | some hdr =>
    match A.dec (kdf password hdr.salt) hdr.nonce (encryptedData.drop HEADER_SIZE) with
    | none => .error .authFailure
    | some plaintext => .ok plaintext

theorem fromBytes_toBytes_append (hdr : EncryptionHeader)
    (hs : hdr.salt.length = SALT_SIZE) (hn : hdr.nonce.length = NONCE_SIZE)
    (ct : List Nat) :
    EncryptionHeader.fromBytes (hdr.toBytes ++ ct) = some hdr ∧
    (hdr.toBytes ++ ct).drop HEADER_SIZE = ct := by
  have htb : hdr.toBytes.length = HEADER_SIZE := by
    simp [EncryptionHeader.toBytes, hs, hn, HEADER_SIZE]
  constructor
  · unfold EncryptionHeader.fromBytes
    rw [if_neg (by simp only [List.length_append, htb]; omega)]
    have h1 : (hdr.toBytes ++ ct).take SALT_SIZE = hdr.salt := by
      rw [EncryptionHeader.toBytes, List.append_assoc]
      exact List.take_left' hs
    have h2 : ((hdr.toBytes ++ ct).drop SALT_SIZE).take NONCE_SIZE = hdr.nonce := by
      rw [EncryptionHeader.toBytes, List.append_assoc, List.drop_left' hs]
      exact List.take_left' hn
    rw [h1, h2]
  · exact List.drop_left' htb

/-- Claim C2: for every plaintext (including the empty byte string) and every
password, decrypting an encrypted chunk with the encrypting password exactly
recovers the plaintext, assuming the AEAD round-trip law of the cipher. -/
theorem decrypt_encrypt_chunk_roundtrip {K : Type} (A : AEAD K)
    (kdf : String → List Nat → K) (hdr : EncryptionHeader)
    (hs : hdr.salt.length = SALT_SIZE) (hn : hdr.nonce.length = NONCE_SIZE)
    (hA : ∀ k n m, A.dec k n (A.enc k n m) = some m)
    (x : List Nat) (p : String) :
    decrypt_chunk A kdf (encrypt_chunk A kdf hdr x p) p = .ok x := by
  have h1 := (fromBytes_toBytes_append hdr hs hn (A.enc (kdf p hdr.salt) hdr.nonce x)).1
  have h2 := (fromBytes_toBytes_append hdr hs hn (A.enc (kdf p hdr.salt) hdr.nonce x)).2
  show decrypt_chunk A kdf (hdr.toBytes ++ A.enc (kdf p hdr.salt) hdr.nonce x) p = .ok x
  unfold decrypt_chunk
  rw [h1]
  simp only [h2, hA]

/-- Claim C3: decrypting with a password deriving a different key fails with
an authentication error; a tampered ciphertext body that is not a genuine
encryption under the derived key also fails; and whenever decryption
succeeds, the returned plaintext is exactly the one whose genuine encryption
(under the key derived from the parsed salt) forms the ciphertext body — no
partial or garbage plaintext is ever returned. -/
theorem decrypt_chunk_auth_spec {K : Type} (A : AEAD K)
    (kdf : String → List Nat → K) (hdr : EncryptionHeader)
    (hs : hdr.salt.length = SALT_SIZE) (hn : hdr.nonce.length = NONCE_SIZE)
    (hAuthKey : ∀ k k' n m, k ≠ k' → A.dec k' n (A.enc k n m) = none)
    (hAuthGenuine : ∀ k n ct m, A.dec k n ct = some m → ct = A.enc k n m)
    (x : List Nat) (p p2 : String) (hkey : kdf p2 hdr.salt ≠ kdf p hdr.salt) :
    decrypt_chunk A kdf (encrypt_chunk A kdf hdr x p) p2 = .error .authFailure ∧
    (∀ ct, (∀ m, ct ≠ A.enc (kdf p hdr.salt) hdr.nonce m) →
      decrypt_chunk A kdf (hdr.toBytes ++ ct) p = .error .authFailure) ∧
    (∀ encData m, decrypt_chunk A kdf encData p = .ok m →
      encData.drop HEADER_SIZE =
        A.enc (kdf p (encData.take SALT_SIZE))
          ((encData.drop SALT_SIZE).take NONCE_SIZE) m) := by
  refine ⟨?_, ?_, ?_⟩
  · have h1 := (fromBytes_toBytes_append hdr hs hn (A.enc (kdf p hdr.salt) hdr.nonce x)).1
    have h2 := (fromBytes_toBytes_append hdr hs hn (A.enc (kdf p hdr.salt) hdr.nonce x)).2
    show decrypt_chunk A kdf (hdr.toBytes ++ A.enc (kdf p hdr.salt) hdr.nonce x) p2 =
      .error .authFailure
    unfold decrypt_chunk
    rw [h1]
    simp only [h2, hAuthKey _ _ _ _ (Ne.symm hkey)]
  · intro ct hct
    have h1 := (fromBytes_toBytes_append hdr hs hn ct).1
    have h2 := (fromBytes_toBytes_append hdr hs hn ct).2
    unfold decrypt_chunk
    rw [h1]
    simp only [h2]
    cases hdec : A.dec (kdf p hdr.salt) hdr.nonce ct with
    | none => rfl
    | some m => exact absurd (hAuthGenuine _ _ _ _ hdec) (hct m)
  · intro encData m hok
    unfold decrypt_chunk at hok
    cases hE : EncryptionHeader.fromBytes encData with
    | none => rw [hE] at hok; cases hok
    | some hdr' =>
      rw [hE] at hok
      cases hdec : A.dec (kdf p hdr'.salt) hdr'.nonce (encData.drop HEADER_SIZE) with
      | none =>
        simp only [hdec] at hok
        exact Except.noConfusion hok
      | some m' =>
        simp only [hdec, Except.ok.injEq] at hok
        subst hok
        have hparse : hdr'.salt = encData.take SALT_SIZE ∧
            hdr'.nonce = (encData.drop SALT_SIZE).take NONCE_SIZE := by
          unfold EncryptionHeader.fromBytes at hE
          by_cases hshort : encData.length < HEADER_SIZE
          · rw [if_pos hshort] at hE; cases hE
          · rw [if_neg hshort] at hE
            injection hE with hE
            subst hE
            exact ⟨rfl, rfl⟩
        rw [← hparse.1, ← hparse.2]
        exact hAuthGenuine _ _ _ _ hdec

-- Toy instances used only to witness the crypto theorems at concrete inputs.

/-- Toy AEAD over `Nat` keys: the ciphertext is the key prepended to the
message as an authentication tag. It satisfies the ideal-AEAD laws that the
theorems assume of AES-GCM. -/
def tagAEAD : AEAD Nat :=
  { enc := fun k _ m => k :: m
    dec := fun k _ ct =>
      match ct with
      | [] => none
      | t :: m => if t = k then some m else none }

theorem tagAEAD_roundtrip : ∀ k n m, tagAEAD.dec k n (tagAEAD.enc k n m) = some m := by
  intro k n m
  simp [tagAEAD]

theorem tagAEAD_wrong_key :
    ∀ k k' n m, k ≠ k' → tagAEAD.dec k' n (tagAEAD.enc k n m) = none := by
  intro k k' n m h
  simp [tagAEAD, h]

theorem tagAEAD_genuine :
    ∀ k n ct m, tagAEAD.dec k n ct = some m → ct = tagAEAD.enc k n m := by
  intro k n ct m h
  match ct with
  | [] => simp [tagAEAD] at h
  | t :: m' =>
    by_cases ht : t = k
    · subst ht
      simp [tagAEAD] at h
      subst h
      rfl
    · simp [tagAEAD, ht] at h

/-- Toy key-derivation function: the password's length stands in for the
derived key; distinct-length passwords derive distinct keys. -/
def lenKdf : String → List Nat → Nat := fun p _ => p.length

/-- Concrete header used by the crypto witnesses. -/
def sampleHeader : EncryptionHeader :=
  { salt := List.replicate 16 1, nonce := List.replicate 12 2 }

/-- Witness for C2 at a nonempty and at the empty plaintext. -/
theorem decrypt_encrypt_chunk_roundtrip_witness :
    decrypt_chunk tagAEAD lenKdf
        (encrypt_chunk tagAEAD lenKdf sampleHeader [7, 8, 9] "pw") "pw" = .ok [7, 8, 9] ∧
    decrypt_chunk tagAEAD lenKdf
        (encrypt_chunk tagAEAD lenKdf sampleHeader [] "pw") "pw" = .ok [] :=
  ⟨decrypt_encrypt_chunk_roundtrip tagAEAD lenKdf sampleHeader (by decide) (by decide)
      tagAEAD_roundtrip [7, 8, 9] "pw",
   decrypt_encrypt_chunk_roundtrip tagAEAD lenKdf sampleHeader (by decide) (by decide)
      tagAEAD_roundtrip [] "pw"⟩

/-- Witness for C3: wrong password and a tampered ciphertext body both fail
with an authentication error at concrete inputs. -/
theorem decrypt_chunk_auth_witness :
    decrypt_chunk tagAEAD lenKdf
        (encrypt_chunk tagAEAD lenKdf sampleHeader [7] "a") "bb" = .error .authFailure ∧
    decrypt_chunk tagAEAD lenKdf
        (sampleHeader.toBytes ++ [9, 7]) "a" = .error .authFailure := by
  refine ⟨(decrypt_chunk_auth_spec tagAEAD lenKdf sampleHeader (by decide) (by decide)
      tagAEAD_wrong_key tagAEAD_genuine [7] "a" "bb" (by decide)).1, ?_⟩
  refine (decrypt_chunk_auth_spec tagAEAD lenKdf sampleHeader (by decide) (by decide)
      tagAEAD_wrong_key tagAEAD_genuine [7] "a" "bb" (by decide)).2.1 [9, 7] ?_
  intro m h
  rw [show tagAEAD.enc (lenKdf "a" sampleHeader.salt) sampleHeader.nonce m =
      lenKdf "a" sampleHeader.salt :: m from rfl,
    show lenKdf "a" sampleHeader.salt = 1 from rfl] at h
  simp at h

-- ## Streaming encryption nonces (`crypto.StreamingEncryptor`)

/-- Big-endian 8-byte encoding of the block counter (`struct.pack ">Q"`),
valid for counters below `2^64`. -/
def packBE8 (counter : Nat) : List Nat :=
  [counter / 72057594037927936 % 256,
   counter / 281474976710656 % 256,
   counter / 1099511627776 % 256,
   counter / 4294967296 % 256,
   counter / 16777216 % 256,
   counter / 65536 % 256,
   counter / 256 % 256,
   counter % 256]

/-- Per-block nonce (`StreamingEncryptor._get_nonce`): the packed counter is
XORed into the first 8 bytes of the base nonce; the last 4 bytes are kept. -/
def getNonce (base : List Nat) (counter : Nat) : List Nat :=
  List.zipWith (fun b cb => b ^^^ cb) (base.take 8) (packBE8 counter) ++ base.drop 8

/-- One `_get_nonce` call: the nonce for the current counter, and the
incremented counter (the monotonically increasing step). -/
def getNonceStep (base : List Nat) (counter : Nat) : List Nat × Nat :=
  (getNonce base counter, counter + 1)

/-- `StreamingEncryptor.encrypt_block`: wire bytes are nonce ‖
ciphertext-with-tag, and the counter advances by one. -/
def encrypt_block {K : Type} (A : AEAD K) (key : K) (base : List Nat)
    (counter : Nat) (data : List Nat) : List Nat × Nat :=
  ((getNonceStep base counter).1 ++
      A.enc key (getNonceStep base counter).1 data,
    (getNonceStep base counter).2)

theorem packBE8_inj (c1 c2 : Nat) (h1 : c1 < 18446744073709551616)
    (h2 : c2 < 18446744073709551616) (h : packBE8 c1 = packBE8 c2) : c1 = c2 := by
  simp only [packBE8, List.cons.injEq, and_true] at h
  omega

theorem zipWith_xor_cancel (bs d1 d2 : List Nat) (hlen : d1.length = d2.length)
    (hb : d1.length ≤ bs.length)
    (h : List.zipWith (fun b cb => b ^^^ cb) bs d1 =
      List.zipWith (fun b cb => b ^^^ cb) bs d2) :
    d1 = d2 := by
  induction bs generalizing d1 d2 with
  | nil =>
    have h0 : d1.length = 0 := by simpa using hb
    have hd1 : d1 = [] := List.length_eq_zero.mp h0
    have hd2 : d2 = [] := List.length_eq_zero.mp (by omega)
    rw [hd1, hd2]
  | cons b bs ih =>
    match d1, d2 with
    | [], [] => rfl
    | [], y :: ys => simp at hlen
    | x :: xs, [] => simp at hlen
    | x :: xs, y :: ys =>
      simp only [List.zipWith, List.cons.injEq] at h
      have hxy : x = y := by
        have hx := h.1
        rw [Nat.xor_comm b x, Nat.xor_comm b y] at hx
        exact Nat.xor_left_inj.mp hx
      have htail : xs = ys := by
        apply ih xs ys (by simpa using hlen) (by simpa using hb) h.2
      rw [hxy, htail]

/-- Claim C8: the streaming-variant per-block nonce is the base nonce with an
8-byte big-endian counter XORed into its low (first 8) bytes, the trailing 4
bytes untouched; each block's wire format is nonce ‖ ciphertext-with-tag and
the counter increases by one per block; and two blocks with distinct,
non-wrapped counters (below `2^64`) get distinct nonces. -/
theorem streaming_nonce_spec {K : Type} (A : AEAD K) (key : K) (base : List Nat)
    (hbase : base.length = 12) :
    (∀ counter data, encrypt_block A key base counter data =
      (getNonce base counter ++ A.enc key (getNonce base counter) data, counter + 1)) ∧
    (∀ counter, getNonceStep base counter = (getNonce base counter, counter + 1)) ∧
    (∀ counter, (getNonce base counter).length = 12 ∧
      (getNonce base counter).drop 8 = base.drop 8) ∧
    (∀ c1 c2, c1 ≠ c2 → c1 < 18446744073709551616 → c2 < 18446744073709551616 →
      getNonce base c1 ≠ getNonce base c2) := by
  have htake : (base.take 8).length = 8 := by rw [List.length_take]; omega
  have hzlen : ∀ counter,
      (List.zipWith (fun b cb => b ^^^ cb) (base.take 8) (packBE8 counter)).length = 8 := by
    intro counter
    rw [List.length_zipWith, htake]
    simp [packBE8]
  refine ⟨fun _ _ => rfl, fun _ => rfl, ?_, ?_⟩
  · intro counter
    constructor
    · rw [getNonce, List.length_append, hzlen, List.length_drop, hbase]
    · rw [getNonce, List.drop_left' (hzlen counter)]
  · intro c1 c2 hne hb1 hb2 heq
    apply hne
    apply packBE8_inj c1 c2 hb1 hb2
    apply zipWith_xor_cancel (base.take 8) _ _ (by simp [packBE8]) (by rw [htake]; simp [packBE8])
    exact (List.append_inj heq (by rw [hzlen, hzlen])).1

/-- Witness for C8: under a concrete 12-byte base nonce the nonces of blocks
0 and 1 differ, and the wire format holds at a concrete block. -/
theorem streaming_nonce_witness :
    getNonce (List.replicate 12 5) 0 ≠ getNonce (List.replicate 12 5) 1 ∧
    encrypt_block tagAEAD 3 (List.replicate 12 5) 0 [9] =
      (getNonce (List.replicate 12 5) 0 ++
        tagAEAD.enc 3 (getNonce (List.replicate 12 5) 0) [9], 1) := by
  have h := streaming_nonce_spec tagAEAD 3 (List.replicate 12 5) (by decide)
  exact ⟨h.2.2.2 0 1 (by decide) (by decide) (by decide), h.1 0 [9]⟩

-- ## Codec pipeline (`televault/compress.py`)

/-- Abstract interface of the external zstd library: level-parameterised
compression and decompression with a `max_output_size` argument (`0` means
"use the content size recorded in the frame header"). The inverse law of the
codec enters the theorem as an explicit hypothesis. -/
structure ZstdBackend where
  compress : Nat → List Nat → List Nat
  decompress : List Nat → Nat → Option (List Nat)

def DEFAULT_LEVEL : Nat := 3

/-- `compress.compress_data`: compress at the given level (default 3). -/
def compress_data (Z : ZstdBackend) (data : List Nat) (level : Nat) : List Nat :=
  Z.compress level data

/-- `compress.decompress_data`: decompress, passing `max_output_size`
(the callers use the default `0`). -/
def decompress_data (Z : ZstdBackend) (data : List Nat) (maxOutputSize : Nat) :
    Option (List Nat) :=
  Z.decompress data maxOutputSize

/-- Claim C6: `decompress_data (compress_data x)` recovers `x` exactly for
every byte string, including the empty one, given the zstd inverse law. -/
theorem decompress_compress_roundtrip (Z : ZstdBackend)
    (hZ : ∀ level x, Z.decompress (Z.compress level x) 0 = some x) :
    (∀ x : List Nat, decompress_data Z (compress_data Z x DEFAULT_LEVEL) 0 = some x) ∧
    decompress_data Z (compress_data Z [] DEFAULT_LEVEL) 0 = some [] :=
  ⟨fun x => hZ DEFAULT_LEVEL x, hZ DEFAULT_LEVEL []⟩

/-- Identity codec standing in for zstd in the witness. -/
def idZstd : ZstdBackend :=
  { compress := fun _ x => x, decompress := fun d _ => some d }

/-- Witness for C6 on a concrete byte string and on the empty string. -/
theorem decompress_compress_roundtrip_witness :
    decompress_data idZstd (compress_data idZstd [3, 1, 4] DEFAULT_LEVEL) 0 = some [3, 1, 4] ∧
    decompress_data idZstd (compress_data idZstd [] DEFAULT_LEVEL) 0 = some [] :=
  ⟨(decompress_compress_roundtrip idZstd (fun _ _ => rfl)).1 [3, 1, 4],
   (decompress_compress_roundtrip idZstd (fun _ _ => rfl)).2⟩

-- ## Vault index (`models.VaultIndex`)

-- The index's `files` field is a Python dict; it is modelled as an
-- insertion-ordered association list with the dict's update semantics
-- (assignment replaces in place, new keys append, `pop` removes).

def dictSet (d : List (String × Nat)) (k : String) (v : Nat) : List (String × Nat) :=
  if d.any (fun p => p.1 == k) then
    d.map (fun p => if p.1 == k then (k, v) else p)
  else d ++ [(k, v)]

def dictGet (d : List (String × Nat)) (k : String) : Option Nat :=
  (d.find? (fun p => p.1 == k)).map Prod.snd

def dictPop (d : List (String × Nat)) (k : String) : Option Nat × List (String × Nat) :=
  (dictGet d k, d.filter (fun p => !(p.1 == k)))

/-- Master index of the vault (`models.VaultIndex`): version, the map
`file_id → metadata message id`, and the update timestamp. -/
structure VaultIndex where
  version : Nat
  files : List (String × Nat)
  updated_at : Nat
deriving DecidableEq

/-- `VaultIndex.add_file`: store the mapping and refresh the timestamp
(timestamps are externalised as a `now` argument). -/
def add_file (idx : VaultIndex) (fileId : String) (messageId : Nat) (now : Nat) :
    VaultIndex :=
  { idx with files := dictSet idx.files fileId messageId, updated_at := now }

/-- `VaultIndex.remove_file`: pop the mapping and return the removed message
id; the timestamp is refreshed only when the popped value is truthy
(present and nonzero), mirroring the source's `if msg_id:` check. -/
def remove_file (idx : VaultIndex) (fileId : String) (now : Nat) :
    Option Nat × VaultIndex :=
  let msgId := dictGet idx.files fileId
  let truthy : Bool :=
    match msgId with
    | some m => m != 0
    | none => false
  (msgId,
    { idx with
        files := (dictPop idx.files fileId).2
        updated_at := if truthy then now else idx.updated_at })

/-- JSON values, restricted to the fragment the index records use. The
`json.dumps`/`json.loads` pair of the standard library is modelled at the
level of structured JSON values. -/
inductive Json where
  | num (n : Nat)
  | str (s : String)
  | obj (fields : List (String × Json))

def jGet (fields : List (String × Json)) (k : String) : Option Json :=
  (fields.find? (fun p => p.1 == k)).map Prod.snd

/-- `VaultIndex.to_json`: the compact JSON object with the three fields. -/
def VaultIndex.toJson (idx : VaultIndex) : Json :=
  Json.obj [("version", Json.num idx.version),
            ("files", Json.obj (idx.files.map (fun p => (p.1, Json.num p.2)))),
            ("updated_at", Json.num idx.updated_at)]

/-- `VaultIndex.from_json`: read only the known fields, each with its
default when missing (`version = 1`, `files = {}`, `updated_at = now`). -/
def VaultIndex.fromJson (j : Json) (now : Nat) : VaultIndex :=
  match j with
  | Json.obj fields =>
    { version :=
        match jGet fields "version" with
        | some (Json.num n) => n
        | _ => 1
      files :=
        match jGet fields "files" with
        | some (Json.obj fs) =>
          fs.filterMap (fun p =>
            match p.2 with
            | Json.num n => some (p.1, n)
            | _ => none)
        | _ => []
      updated_at :=
        match jGet fields "updated_at" with
        | some (Json.num n) => n
        | _ => now }
  | _ => { version := 1, files := [], updated_at := now }

theorem dictGet_dictSet_same (d : List (String × Nat)) (k : String) (v : Nat) :
    dictGet (dictSet d k v) k = some v := by
  unfold dictSet
  by_cases hany : (d.any (fun p => p.1 == k)) = true
  · rw [if_pos hany]
    unfold dictGet
    rw [List.find?_map]
    have hpred : ((fun p : String × Nat => p.1 == k) ∘
        (fun p : String × Nat => if p.1 == k then (k, v) else p)) =
        fun p : String × Nat => p.1 == k := by
      funext p
      by_cases hp : (p.1 == k) = true
      · simp [Function.comp, hp]
      · simp [Function.comp, hp]
    rw [hpred]
    obtain ⟨x, hx, hpx⟩ := List.any_eq_true.mp hany
    rcases hfind : d.find? (fun p => p.1 == k) with _ | q
    · rw [List.find?_eq_none] at hfind
      exact absurd hpx (hfind x hx)
    · have hq := List.find?_some hfind
      rw [hfind, Option.map_some', Option.map_some']
      simp [hq]
  · rw [if_neg hany]
    unfold dictGet
    rw [List.find?_append]
    have hany' : (d.any (fun p => p.1 == k)) = false := by
      revert hany
      cases d.any (fun p => p.1 == k) <;> simp
    have hnone : d.find? (fun p => p.1 == k) = none := by
      rw [List.find?_eq_none]
      exact List.any_eq_false.mp hany'
    rw [hnone]
    simp [List.find?]

theorem dictGet_dictSet_other (d : List (String × Nat)) (k k' : String) (v : Nat)
    (hne : k' ≠ k) :
    dictGet (dictSet d k v) k' = dictGet d k' := by
  unfold dictSet
  by_cases hany : (d.any (fun p => p.1 == k)) = true
  · rw [if_pos hany]
    unfold dictGet
    rw [List.find?_map]
    have hpred : ((fun p : String × Nat => p.1 == k') ∘
        (fun p : String × Nat => if p.1 == k then (k, v) else p)) =
        fun p : String × Nat => p.1 == k' := by
      funext p
      by_cases hp : (p.1 == k) = true
      · have hp1 : p.1 = k := by simpa using hp
        simp [Function.comp, hp, hp1]
      · simp [Function.comp, hp]
    rw [hpred]
    rcases hfind : d.find? (fun p => p.1 == k') with _ | q
    · rw [hfind]
      rfl
    · have hq := List.find?_some hfind
      have hq1 : q.1 = k' := by simpa using hq
      have hqk : (q.1 == k) = false := by simp [hq1, hne]
      rw [hfind, Option.map_some', Option.map_some']
      simp [hqk]
  · rw [if_neg hany]
    unfold dictGet
    rw [List.find?_append]
    have h2 : ([((k : String), (v : Nat))].find? (fun p => p.1 == k')) = none := by
      rw [List.find?_cons_of_neg _ (by simp [Ne.symm hne])]
      rfl
    rw [h2]
    cases d.find? (fun p => p.1 == k') <;> rfl

theorem filterMap_some_pair (d : List (String × Nat)) :
    (d.filterMap fun p => some (p.1, p.2)) = d := by
  induction d with
  | nil => rfl
  | cons p d ih => simp [List.filterMap_cons, ih]

/-- Counterexample to C7 as stated: when the file id is already catalogued,
`add_file` overwrites the old mapping and `remove_file` then deletes the
entry outright, so the prior state (even just its `files` map) is not
restored. -/
def sampleIdx : VaultIndex := { version := 1, files := [("f1", 5)], updated_at := 0 }

theorem add_remove_counterexample :
    (remove_file (add_file sampleIdx "f1" 100 1) "f1" 2).2.files ≠ sampleIdx.files ∧
    (remove_file (add_file sampleIdx "f1" 100 1) "f1" 2).2 ≠ sampleIdx := by
  decide

/-- Claim C7 (amended): `add_file` followed by `remove_file` of the same id
restores the prior `files` mapping provided that id was not already
catalogued (the timestamp is refreshed, not restored); two distinct ids
persist independently; and JSON serialisation round-trips the `files`
mapping exactly. -/
theorem index_laws_amended (idx : VaultIndex) (fileId : String)
    (messageId now now2 : Nat) :
    (dictGet idx.files fileId = none →
      (remove_file (add_file idx fileId messageId now) fileId now2).2.files =
        idx.files) ∧
    (∀ f1 f2 m1 m2 t1 t2, f1 ≠ f2 →
      dictGet (add_file (add_file idx f1 m1 t1) f2 m2 t2).files f1 = some m1 ∧
      dictGet (add_file (add_file idx f1 m1 t1) f2 m2 t2).files f2 = some m2) ∧
    (VaultIndex.fromJson idx.toJson now).files = idx.files := by
  refine ⟨?_, ?_, ?_⟩
  · intro hfree
    have hnone : idx.files.find? (fun p => p.1 == fileId) = none := by
      unfold dictGet at hfree
      cases hf : idx.files.find? (fun p => p.1 == fileId) with
      | none => rfl
      | some q => rw [hf] at hfree; cases hfree
    have hall := List.find?_eq_none.mp hnone
    have hany : (idx.files.any (fun p => p.1 == fileId)) = false := by
      rw [List.any_eq_false]
      intro p hp
      exact hall p hp
    have hnotany : ¬ ((idx.files.any fun p => p.1 == fileId) = true) := by
      rw [hany]; exact Bool.false_ne_true
    have h1 : idx.files.filter (fun p => !(p.1 == fileId)) = idx.files := by
      rw [List.filter_eq_self]
      intro p hp
      simp [hall p hp]
    have h2 : ([((fileId : String), messageId)].filter (fun p => !(p.1 == fileId))) =
        [] := by
      simp
    show ((dictPop (dictSet idx.files fileId messageId) fileId).2 : List (String × Nat)) =
      idx.files
    unfold dictPop dictSet
    rw [if_neg hnotany]
    show ((idx.files ++ [(fileId, messageId)]).filter (fun p => !(p.1 == fileId))) =
      idx.files
    rw [List.filter_append, h1, h2, List.append_nil]
  · intro f1 f2 m1 m2 t1 t2 hne
    constructor
    · show dictGet (dictSet (dictSet idx.files f1 m1) f2 m2) f1 = some m1
      rw [dictGet_dictSet_other _ f2 f1 m2 hne, dictGet_dictSet_same]
    · show dictGet (dictSet (dictSet idx.files f1 m1) f2 m2) f2 = some m2
      rw [dictGet_dictSet_same]
  · show (VaultIndex.fromJson (VaultIndex.toJson idx) now).files = idx.files
    unfold VaultIndex.toJson VaultIndex.fromJson
    have hfind : ([(("version" : String), Json.num idx.version),
        ("files", Json.obj (idx.files.map (fun p => (p.1, Json.num p.2)))),
        ("updated_at", Json.num idx.updated_at)].find?
          (fun p => p.1 == "files")) =
        some ("files", Json.obj (idx.files.map (fun p => (p.1, Json.num p.2)))) := rfl
    simp only [jGet, hfind, Option.map_some']
    rw [List.filterMap_map]
    have hcomp : ((fun p : String × Json => match p.2 with
        | Json.num n => some (p.1, n)
        | _ => none) ∘ (fun p : String × Nat => (p.1, Json.num p.2))) =
        fun p : String × Nat => some (p.1, p.2) := by
      funext p
      rfl
    rw [hcomp]
    exact filterMap_some_pair idx.files

/-- Witness for C7 (amended) at a concrete index: fresh-id add/remove
restores the files map, two distinct ids persist, and the JSON round-trip
preserves the map. -/
theorem index_laws_amended_witness :
    (remove_file (add_file sampleIdx "f2" 100 1) "f2" 2).2.files = sampleIdx.files ∧
    dictGet (add_file (add_file sampleIdx "a" 10 1) "b" 20 2).files "a" = some 10 ∧
    dictGet (add_file (add_file sampleIdx "a" 10 1) "b" 20 2).files "b" = some 20 ∧
    (VaultIndex.fromJson sampleIdx.toJson 9).files = sampleIdx.files := by
  have h := index_laws_amended sampleIdx "f2" 100 1 2
  have h2 := (index_laws_amended sampleIdx "f2" 100 1 9).2.1 "a" "b" 10 20 1 2
    (by decide)
  exact ⟨h.1 (by decide), h2.1, h2.2, (index_laws_amended sampleIdx "f2" 100 1 9).2.2⟩

-- ## Download target resolution (`TeleVault.download`)

inductive ResolveError where
  | notFound
  | ambiguousMatch
deriving DecidableEq

/-- Name-match predicate of the download path: exact filename equality or
substring containment (Python's `in` operator on strings). -/
def nameMatches (query : String) (f : FileMetadata) : Bool :=
  f.name == query || decide (query.toList <:+: f.name.toList)

/-- Target resolution step of `TeleVault.download`: an exact `file_id` index
hit wins; otherwise the query is matched against all catalogued file names,
with zero matches a not-found error and several matches an ambiguous-match
error; a unique match resolves to that file's metadata message id. -/
def resolveTarget (files : List (String × Nat)) (listed : List FileMetadata)
    (query : String) : Except ResolveError (Option Nat) :=
  match dictGet files query with
  | some metadataMsgId => .ok (some metadataMsgId)
  | none =>
    match listed.filter (nameMatches query) with
    | [] => .error .notFound
    | [f] => .ok f.message_id
    | _ :: _ :: _ => .error .ambiguousMatch

/-- Claim C9: download resolution tries the exact id first; with the id
absent, zero name matches fail with not-found, more than one name match
fails with ambiguous-match (never a silent first pick), and a unique match
resolves to it. -/
theorem resolve_target_spec (files : List (String × Nat)) (listed : List FileMetadata)
    (query : String) :
    (∀ mid, dictGet files query = some mid →
      resolveTarget files listed query = .ok (some mid)) ∧
    (dictGet files query = none → listed.filter (nameMatches query) = [] →
      resolveTarget files listed query = .error .notFound) ∧
    (dictGet files query = none → 1 < (listed.filter (nameMatches query)).length →
      resolveTarget files listed query = .error .ambiguousMatch) ∧
    (dictGet files query = none → ∀ f, listed.filter (nameMatches query) = [f] →
      resolveTarget files listed query = .ok f.message_id) := by
  refine ⟨?_, ?_, ?_, ?_⟩
  · intro mid h
    simp only [resolveTarget, h]
  · intro h hm
    simp only [resolveTarget, h, hm]
  · intro h hlen
    rcases hm : listed.filter (nameMatches query) with _ | ⟨a, _ | ⟨b, rest⟩⟩
    · rw [hm] at hlen; simp at hlen
    · rw [hm] at hlen; simp at hlen
    · simp only [resolveTarget, h, hm]
  · intro h f hm
    simp only [resolveTarget, h, hm]

/-- A catalogued file used by the resolution witness. -/
def listedFile (nm : String) (mid : Nat) : FileMetadata :=
  { id := "x", name := nm, size := 0, hash := 0, chunks := [],
    encrypted := false, compressed := false, message_id := some mid }

/-- Witness for C9: exact id hit, not-found, ambiguity (exact plus substring
match), and unique-match resolution, at concrete inputs. -/
theorem resolve_target_witness :
    resolveTarget [("abc123", 7)] [] "abc123" = .ok (some 7) ∧
    resolveTarget [] [listedFile "a.txt" 1] "zzz" = .error .notFound ∧
    resolveTarget [] [listedFile "a.txt" 1, listedFile "ba.txt" 2] "a.txt" =
      .error .ambiguousMatch ∧
    resolveTarget [] [listedFile "a.txt" 1] "a.txt" = .ok (some 1) := by
  refine ⟨(resolve_target_spec [("abc123", 7)] [] "abc123").1 7 (by decide),
    (resolve_target_spec [] [listedFile "a.txt" 1] "zzz").2.1 (by decide) (by decide),
    (resolve_target_spec [] [listedFile "a.txt" 1, listedFile "ba.txt" 2] "a.txt").2.2.1
      (by decide) (by decide),
    ?_⟩
  have h := (resolve_target_spec [] [listedFile "a.txt" 1] "a.txt").2.2.2
    (by decide) (listedFile "a.txt" 1) (by decide)
  exact h

-- ## Download orchestrator (`TeleVault.download`, chunk loop and hash checks)

/-- Error taxonomy of the download path: per-chunk stored-bytes hash mismatch
(`ChunkCorruption`), missing password, AEAD authentication failure,
decompression failure, and whole-file hash mismatch after reassembly
(`FileCorruption`). -/
inductive DlError where
  | chunkCorruption (index : Nat)
  | missingPassword
  | decryptionFailure
  | decompressFailure
  | fileCorruption
deriving DecidableEq

/-- Environment of a download: the remote fetch by message id, the BLAKE3
digest function (used both per chunk and on the reassembled file), and the
decrypt/decompress codecs, all externalised. -/
structure DlEnv where
  fetch : Nat → List Nat
  hashData : List Nat → Nat
  decrypt : String → List Nat → Option (List Nat)
  decompress : List Nat → Option (List Nat)

/-- Decryption stage of the chunk loop: an encrypted file requires a
password (fatal error when missing) and a successful AEAD decryption. -/
def decryptStage (env : DlEnv) (md : FileMetadata) (password : Option String)
    (data : List Nat) : Except DlError (List Nat) :=
  if md.encrypted then
    match password with
    | none => Except.error DlError.missingPassword
    | some p =>
      match env.decrypt p data with
      | none => Except.error DlError.decryptionFailure
      | some d => Except.ok d
  else Except.ok data

/-- Decompression stage of the chunk loop. -/
def decompressStage (env : DlEnv) (md : FileMetadata) (data : List Nat) :
    Except DlError (List Nat) :=
  if md.compressed then
    match env.decompress data with
    | none => Except.error DlError.decompressFailure
    | some d => Except.ok d
  else Except.ok data

/-- Per-chunk payload processing: decrypt if the metadata says encrypted,
then decompress if it says compressed. -/
def processChunk (env : DlEnv) (md : FileMetadata) (password : Option String)
    (data : List Nat) : Except DlError (List Nat) :=
  match decryptStage env md password data with
  | Except.error e => Except.error e
  | Except.ok d => decompressStage env md d

/-- Stable insertion used to model Python's `sorted(chunks, key=index)`. -/
def insertByIndex (ci : ChunkInfo) : List ChunkInfo → List ChunkInfo
  | [] => [ci]
  | c2 :: rest =>
    if ci.index ≤ c2.index then ci :: c2 :: rest else c2 :: insertByIndex ci rest

def sortByIndex (l : List ChunkInfo) : List ChunkInfo :=
  l.foldr insertByIndex []

/-- The download chunk loop: fetch each chunk's stored bytes, verify the
stored-bytes hash before touching the payload (raising `ChunkCorruption` on
mismatch), process and write into the `ChunkWriter`. Returns the error that
aborted the loop (if any) together with the writer state as left on disk. -/
def dlLoop (env : DlEnv) (md : FileMetadata) (password : Option String)
    (chunkSize : Nat) : List ChunkInfo → WriterState → Option DlError × WriterState
  | [], st => (none, st)
  | ci :: rest, st =>
    let data := env.fetch ci.message_id
    if env.hashData data ≠ ci.hash then (some (DlError.chunkCorruption ci.index), st)
    else
      match processChunk env md password data with
      | Except.error e => (some e, st)
      | Except.ok d =>
        dlLoop env md password chunkSize rest
          (write_chunk chunkSize st { index := ci.index, data := d, hash := 0, size := d.length })

/-- The download operation around the loop: the `ChunkWriter` pre-allocates
the output at `metadata.size` before any fetch; an error inside the loop
propagates with the partial output left on disk; after a complete loop the
whole-file hash is compared against `metadata.hash` and on mismatch the
output is deleted (`unlink`) before raising `FileCorruption`. The second
component is the local output file: `none` when absent from disk. -/
def download (env : DlEnv) (md : FileMetadata) (password : Option String)
    (chunkSize : Nat) : Option DlError × Option (List Nat) :=
  let res := dlLoop env md password chunkSize (sortByIndex md.chunks) (writerInit md.size)
  match res.1 with
  | some e => (some e, some res.2.contents)
  | none =>
    if env.hashData res.2.contents ≠ md.hash then (some DlError.fileCorruption, none)
    else (none, some res.2.contents)

theorem decryptStage_error (env : DlEnv) (md : FileMetadata) (pw : Option String)
    (data : List Nat) (e : DlError) (h : decryptStage env md pw data = .error e) :
    e = DlError.missingPassword ∨ e = DlError.decryptionFailure := by
  unfold decryptStage at h
  by_cases henc : md.encrypted = true
  · rw [if_pos henc] at h
    cases pw with
    | none =>
      injection h with h
      exact Or.inl h.symm
    | some p =>
      cases hd : env.decrypt p data with
      | none =>
        simp only [hd] at h
        injection h with h
        exact Or.inr h.symm
      | some d =>
        simp only [hd] at h
        cases h
  · rw [if_neg henc] at h
    cases h

theorem decompressStage_error (env : DlEnv) (md : FileMetadata) (data : List Nat)
    (e : DlError) (h : decompressStage env md data = .error e) :
    e = DlError.decompressFailure := by
  unfold decompressStage at h
  by_cases hc : md.compressed = true
  · rw [if_pos hc] at h
    cases hd : env.decompress data with
    | none =>
      simp only [hd] at h
      injection h with h
      exact h.symm
    | some d =>
      simp only [hd] at h
      cases h
  · rw [if_neg hc] at h
    cases h

theorem processChunk_error (env : DlEnv) (md : FileMetadata) (pw : Option String)
    (data : List Nat) (e : DlError) (h : processChunk env md pw data = .error e) :
    e ≠ DlError.fileCorruption := by
  unfold processChunk at h
  cases hs : decryptStage env md pw data with
  | error e' =>
    simp only [hs] at h
    injection h with h
    rcases decryptStage_error env md pw data e' hs with h' | h' <;>
      (subst h; subst h'; intro hc; cases hc)
  | ok d =>
    simp only [hs] at h
    have := decompressStage_error env md d e h
    subst this
    intro hc
    cases hc

/-- The chunk loop can only abort with a per-chunk error, never with the
whole-file `FileCorruption` error. -/
theorem dlLoop_error_cases (env : DlEnv) (md : FileMetadata) (pw : Option String)
    (chunkSize : Nat) (l : List ChunkInfo) :
    ∀ st e st', dlLoop env md pw chunkSize l st = (some e, st') →
      e ≠ DlError.fileCorruption := by
  induction l with
  | nil =>
    intro st e st' h
    unfold dlLoop at h
    injection h with h1 h2
    cases h1
  | cons ci rest ih =>
    intro st e st' h
    unfold dlLoop at h
    by_cases hh : env.hashData (env.fetch ci.message_id) ≠ ci.hash
    · rw [if_pos hh] at h
      injection h with h1 h2
      injection h1 with h1
      subst h1
      intro hc
      cases hc
    · rw [if_neg hh] at h
      cases hp : processChunk env md pw (env.fetch ci.message_id) with
      | error e' =>
        simp only [hp] at h
        injection h with h1 h2
        injection h1 with h1
        subst h1
        exact processChunk_error env md pw _ e' hp
      | ok d =>
        simp only [hp] at h
        exact ih _ e st' h

/-- Concrete counterexample to C1 as stated: when a chunk's stored-bytes
hash mismatches, the download aborts with `ChunkCorruption` but the
pre-allocated partial output file is left on disk (only the whole-file
check deletes the output). -/
def corruptEnv : DlEnv :=
  { fetch := fun _ => [1, 2]
    hashData := fun _ => 0
    decrypt := fun _ _ => none
    decompress := fun d => some d }

def corruptMd : FileMetadata :=
  { id := "f", name := "f.bin", size := 2, hash := 99,
    chunks := [⟨0, 7, 2, 99⟩], encrypted := false, compressed := false,
    message_id := none }

theorem download_chunk_corruption_counterexample :
    (download corruptEnv corruptMd none 100).1 = some (DlError.chunkCorruption 0) ∧
    (download corruptEnv corruptMd none 100).2 = some [0, 0] ∧
    (download corruptEnv corruptMd none 100).2 ≠ none := by
  refine ⟨by decide, by decide, by decide⟩

/-- Claim C1 (amended): a download failing with `FileCorruption` (whole-file
hash mismatch after reassembly) deletes the output, leaving no partial file
on disk; a download failing with `ChunkCorruption` aborts with the error
surfaced — never silently recovered — but the pre-allocated partial output
remains on disk. -/
theorem download_corruption_amended (env : DlEnv) (md : FileMetadata)
    (pw : Option String) (chunkSize : Nat) :
    ((download env md pw chunkSize).1 = some DlError.fileCorruption →
      (download env md pw chunkSize).2 = none) ∧
    (∀ i, (download env md pw chunkSize).1 = some (DlError.chunkCorruption i) →
      (download env md pw chunkSize).2 ≠ none) := by
  rcases hloop : dlLoop env md pw chunkSize (sortByIndex md.chunks) (writerInit md.size)
    with ⟨oe, st⟩
  cases oe with
  | some e =>
    have hd : download env md pw chunkSize = (some e, some st.contents) := by
      unfold download
      rw [hloop]
    rw [hd]
    constructor
    · intro hfc
      injection hfc with hfc
      exact absurd hfc (dlLoop_error_cases env md pw chunkSize _ _ e st hloop)
    · intro i hi
      simp
  | none =>
    have hd : download env md pw chunkSize =
        if env.hashData st.contents ≠ md.hash then (some DlError.fileCorruption, none)
        else (none, some st.contents) := by
      unfold download
      rw [hloop]
    rw [hd]
    by_cases hhash : env.hashData st.contents ≠ md.hash
    · rw [if_pos hhash]
      constructor
      · intro _
        rfl
      · intro i hi
        injection hi with hi
        cases hi
    · rw [if_neg hhash]
      constructor
      · intro hfc
        cases hfc
      · intro i hi
        cases hi

/-- Environment and metadata triggering the whole-file hash mismatch: the
chunk passes its stored-bytes check but the reassembled file hashes to a
value different from `metadata.hash`. -/
def mismatchEnv : DlEnv :=
  { fetch := fun _ => [1, 2]
    hashData := fun _ => 0
    decrypt := fun _ _ => none
    decompress := fun d => some d }

def mismatchMd : FileMetadata :=
  { id := "g", name := "g.bin", size := 2, hash := 5,
    chunks := [⟨0, 7, 2, 0⟩], encrypted := false, compressed := false,
    message_id := none }

/-- Witness for C1 (amended): on a concrete `FileCorruption` failure the
output file is gone, and on the concrete `ChunkCorruption` failure the
partial output remains. -/
theorem download_corruption_amended_witness :
    (download mismatchEnv mismatchMd none 100).2 = none ∧
    (download corruptEnv corruptMd none 100).2 ≠ none := by
  constructor
  · exact (download_corruption_amended mismatchEnv mismatchMd none 100).1 (by decide)
  · exact (download_corruption_amended corruptEnv corruptMd none 100).2 0 (by decide)

end TeleVault
